import Mathlib

/-!
Verification of the `secret_santa` gift-exchange roster
(`secret_santa.py`, `secret_santa_utilities.py`) against its
natural-language specification.

The Python program is shallowly embedded:

* Python `dict`s are insertion-ordered association lists; assigning to an
  existing key rewrites the value in place, assigning to a fresh key appends.
* The pointer dict is declared `dict[int, Optional[int]]` but Python is
  dynamically typed, so pointer values are embedded as `PyScalar`
  (`pnull` for `None`, `pint` for an `int`, `pstr` for a `str`); Python
  equality between values of different runtime types is `False`, which the
  derived equality on `PyScalar` reproduces.
* `random.choice` is given an oracle list of draws; a draw that is not a
  member of the pool is not a run of the program, and functions that can
  raise (`IndexError` on an empty pool) or fail to return are `Option`-valued,
  `none` meaning "this finite draw trace does not produce a normal return".
-/

inductive PyScalar where
  | pnull : PyScalar
  | pint : Int → PyScalar
  | pstr : String → PyScalar
deriving DecidableEq

/-- The state of a `SecretSanta` object: `name`, `budget`, and the three
insertion-ordered dicts `_people`, `_wishlist`, `_pointer`. -/
structure SecretSanta where
  name : String
  budget : ℚ
  people : List (Int × String)
  wishlist : List (Int × List String)
  pointer : List (Int × PyScalar)
deriving DecidableEq

/-- Python `x in l` for a list/set of values. -/
def listContains {α : Type} [DecidableEq α] (l : List α) (x : α) : Bool :=
  l.any (fun y => y = x)

/-- Python `d[k]` as a partial read: the value at key `k`, if present. -/
def dictGet {κ α : Type} [DecidableEq κ] (d : List (κ × α)) (k : κ) : Option α :=
  match d with
  | [] => none
  | kv :: rest => if kv.1 = k then some kv.2 else dictGet rest k

/-- Python `k in d` for an integer-keyed dict. -/
def hasKey {α : Type} (d : List (Int × α)) (k : Int) : Bool :=
  listContains (d.map Prod.fst) k

/-- Python `d[k] = v`: rewrite the value in place if `k` is a key,
otherwise append the new entry. -/
def dictInsert {α : Type} (d : List (Int × α)) (k : Int) (v : α) : List (Int × α) :=
  if hasKey d k then
    d.map (fun kv => if kv.1 = k then (k, v) else kv)
  else d ++ [(k, v)]

/-- Python `d.pop(k)` (keys are unique in a dict, so filtering is removal). -/
def dictPop {α : Type} (d : List (Int × α)) (k : Int) : List (Int × α) :=
  d.filter (fun kv => kv.1 ≠ k)

/-- Python `set(a) == set(b)`: the two collections hold the same elements. -/
def listSetEq {α : Type} [DecidableEq α] (a b : List α) : Bool :=
  a.all (fun x => listContains b x) && b.all (fun x => listContains a x)

/-- `SecretSanta.__init__` (`float(budget)` is the identity on the numeric
model of a float). -/
def SecretSanta.init (name : String) (budget : ℚ) : SecretSanta :=
  { name := name, budget := budget, people := [], wishlist := [], pointer := [] }

/-- `SecretSanta.add_user`.  The source guards with
`if user not in self._wishlist`, which tests the *name string* for
membership among the *integer keys* of the wishlist dict; in Python a
`str` never equals an `int`, and the embedding keeps the comparison as
written, at `PyScalar` type. -/
def SecretSanta.add_user (s : SecretSanta) (user : String) (user_id : Int) :
    SecretSanta × Bool :=
  if !(listContains (s.wishlist.map (fun kv => PyScalar.pint kv.1)) (PyScalar.pstr user)) then
    ({ s with
        people := dictInsert s.people user_id user
        wishlist := dictInsert s.wishlist user_id []
        pointer := dictInsert s.pointer user_id PyScalar.pnull }, true)
  else (s, false)

/-- `SecretSanta.add_wish`: appends to `self._wishlist[user_id]` when
`user_id in self._people`.  (If the id were a people key but not a
wishlist key Python would raise `KeyError`; the program never reaches
such a state, and the embedding leaves the wishlist unchanged there.) -/
def SecretSanta.add_wish (s : SecretSanta) (user_id : Int) (wish : String) :
    SecretSanta :=
  if hasKey s.people user_id then
    { s with
        wishlist := s.wishlist.map (fun kv =>
          if kv.1 = user_id then (kv.1, kv.2 ++ [wish]) else kv) }
  else s

/-- The `while rand == person: rand = random.choice(people_ids)` retry loop.
Each `random.choice` consumes one oracle draw, which must be a member of the
pool (`random.choice` on an empty pool raises `IndexError`, hence `none`). -/
def drawNonSelf (person : Int) (pool : List Int) : List Int → Option (Int × List Int)
  | [] => none
  | d :: rest =>
    if listContains pool d then
      if d = person then drawNonSelf person pool rest
      else some (d, rest)
    else none

/-- The `for person in self._pointer` loop of `randomize_pointer`:
draw a non-self recipient for `person`, remove it from the pool
(`people_ids.remove(rand)`), store it (`self._pointer[person] = rand`). -/
def randomizeLoop (pointer : List (Int × PyScalar)) :
    List Int → List Int → List Int → Option (List (Int × PyScalar))
  | [], _, _ => some pointer
  | person :: keys, pool, draws =>
    match drawNonSelf person pool draws with
    | none => none
    | some (rand, rest) =>
        randomizeLoop (dictInsert pointer person (PyScalar.pint rand))
          keys (pool.erase rand) rest

/-- `SecretSanta.randomize_pointer`: iterates the keys of `_pointer`
drawing from `people_ids = list(self._people.keys())`, then returns `True`. -/
def SecretSanta.randomize_pointer (s : SecretSanta) (draws : List Int) :
    Option (SecretSanta × Bool) :=
  match randomizeLoop s.pointer (s.pointer.map Prod.fst) (s.people.map Prod.fst) draws with
  | none => none
  | some ptr => some ({ s with pointer := ptr }, true)

/-- `SecretSanta.remove_user`: pops the id from `_people` only, then, if
`_pointer` is non-empty, re-randomizes (ignoring the returned boolean)
before returning `True`. -/
def SecretSanta.remove_user (s : SecretSanta) (user_id : Int) (draws : List Int) :
    Option (SecretSanta × Bool) :=
  if hasKey s.people user_id then
    let s1 : SecretSanta := { s with people := dictPop s.people user_id }
    if s1.pointer ≠ [] then
      match s1.randomize_pointer draws with
      | none => none
      | some r => some (r.1, true)
    else some (s1, true)
  else some (s, false)

/-- Pythonic membership of a pointer *value* in the set of integer keys:
an `int` value is compared by value, `None` and `str` values never equal
an `int`. -/
def pyMemIntSet (v : PyScalar) (keys : List Int) : Bool :=
  match v with
  | PyScalar.pint i => listContains keys i
  | _ => false

/-- `SecretSanta._is_valid_pointer`, exactly the source's two checks:
`keys != values or keys != set(self._pointer.keys())` first (the key set
compared with the value set identifies `int` keys with `int` values), then
the per-entry loop `key == value or (value not in keys and value is not None)`. -/
def SecretSanta.is_valid_pointer (s : SecretSanta) (new_pointer : List (Int × PyScalar)) :
    Bool :=
  let keys := new_pointer.map Prod.fst
  let values := new_pointer.map Prod.snd
  if !listSetEq (keys.map PyScalar.pint) values || !listSetEq keys (s.pointer.map Prod.fst) then
    false
  else
    new_pointer.all (fun kv =>
      !(decide (PyScalar.pint kv.1 = kv.2) ||
        (!(pyMemIntSet kv.2 keys) && !(decide (kv.2 = PyScalar.pnull)))))

/-- `SecretSanta.set_pointer`: replace the pointer wholesale when valid,
otherwise leave the state untouched and report failure. -/
def SecretSanta.set_pointer (s : SecretSanta) (new_pointer : List (Int × PyScalar)) :
    SecretSanta × Bool :=
  if s.is_valid_pointer new_pointer then
    ({ s with pointer := new_pointer }, true)
  else (s, false)

/-- Big-endian decimal digit characters of `n` (empty for `0`); the fuel
argument only bounds the recursion depth and `n` itself always suffices. -/
def natCharsCore : Nat → Nat → List Char
  | 0, _ => []
  | _, 0 => []
  | fuel + 1, n + 1 =>
    natCharsCore fuel ((n + 1) / 10) ++ [Nat.digitChar ((n + 1) % 10)]

/-- Python `str` of a non-negative integer: its decimal digit characters. -/
def natChars (n : Nat) : List Char :=
  if n = 0 then ['0'] else natCharsCore n n

/-- Python `str(k)` for an `int`: decimal digits, with a leading minus sign
for negative values. -/
def pyStrInt (k : Int) : String :=
  String.mk (if k < 0 then '-' :: natChars k.natAbs else natChars k.natAbs)

/-- Numeric value of a decimal digit character. -/
def charVal (c : Char) : Nat := c.toNat - 48

/-- Accumulator pass of Python `int()` over decimal digit characters. -/
def parseNatChars (l : List Char) : Nat :=
  l.foldl (fun acc c => acc * 10 + charVal c) 0

/-- Python `int(s)` on a decimal string (optionally signed); the program
only applies it to strings produced by `str(k)`. -/
def pyIntOfStr (s : String) : Int :=
  match s.data with
  | '-' :: rest => - (parseNatChars rest : Int)
  | l => (parseNatChars l : Int)

/-- The snapshot dictionary produced by `to_dict` (the persisted JSON
structure): three string-keyed tables. -/
structure Snapshot where
  name : String
  budget : ℚ
  people : List (String × String)
  wishlist : List (String × List String)
  pointer : List (String × PyScalar)
deriving DecidableEq

/-- `SecretSanta.to_dict`: one pass over `self._people`, keying all three
tables by `str(person)`; the wishlist and pointer entries are read with
`self._wishlist[person]` / `self._pointer[person]` (present under the
key-set invariant; Python would raise `KeyError` otherwise, the embedding
uses a default that is never reached on such states).  The pointer value is
stored as-is — not stringified. -/
def SecretSanta.to_dict (s : SecretSanta) : Snapshot :=
  { name := s.name
    budget := s.budget
    people := s.people.map (fun p => (pyStrInt p.1, p.2))
    wishlist := s.people.map (fun p => (pyStrInt p.1, (dictGet s.wishlist p.1).getD []))
    pointer := s.people.map (fun p =>
      (pyStrInt p.1, (dictGet s.pointer p.1).getD PyScalar.pnull)) }

/-- The `for person in secret_santa_dict["people"]` loop of
`load_exchange`: `add_user(name, int(person))`, record
`new_pointer[int(person)] = secret_santa_dict["pointer"][person]`, then
`add_wish` every stored wish.  A key missing from the wishlist or pointer
table raises `KeyError` in Python, hence `none`. -/
def loadLoop (d : Snapshot) :
    List (String × String) → SecretSanta → List (Int × PyScalar) →
      Option (SecretSanta × List (Int × PyScalar))
  | [], s, np => some (s, np)
  | (pk, nm) :: rest, s, np =>
    match dictGet d.pointer pk, dictGet d.wishlist pk with
    | some pv, some wl =>
        let s1 := (s.add_user nm (pyIntOfStr pk)).1
        let np1 := dictInsert np (pyIntOfStr pk) pv
        let s2 := wl.foldl (fun t w => t.add_wish (pyIntOfStr pk) w) s1
        loadLoop d rest s2 np1
    | _, _ => none

/-- `load_exchange` with the file layer stripped: rebuild the roster from a
snapshot, then install the collected pointer through `set_pointer`
(whose result Python ignores). -/
def load_exchange (d : Snapshot) : Option SecretSanta :=
  match loadLoop d d.people (SecretSanta.init d.name d.budget) [] with
  | none => none
  | some (s, np) => some (s.set_pointer np).1

/-! ### Association-list and set lemmas -/

theorem listContains_iff {α : Type} [DecidableEq α] (l : List α) (x : α) :
    listContains l x = true ↔ x ∈ l := by
  simp only [listContains, List.any_eq_true, decide_eq_true_eq]
  constructor
  · rintro ⟨y, hy, rfl⟩; exact hy
  · intro hx; exact ⟨x, hx, rfl⟩

theorem hasKey_iff {α : Type} (d : List (Int × α)) (k : Int) :
    hasKey d k = true ↔ k ∈ d.map Prod.fst := by
  rw [hasKey, listContains_iff]

theorem listSetEq_iff {α : Type} [DecidableEq α] (a b : List α) :
    listSetEq a b = true ↔ ∀ x, x ∈ a ↔ x ∈ b := by
  simp only [listSetEq, Bool.and_eq_true, List.all_eq_true, listContains_iff]
  constructor
  · rintro ⟨h1, h2⟩ x
    exact ⟨fun hx => h1 x hx, fun hx => h2 x hx⟩
  · intro h
    exact ⟨fun x hx => (h x).mp hx, fun x hx => (h x).mpr hx⟩

theorem setInPlace_map_fst {α : Type} (d : List (Int × α)) (k : Int) (v : α) :
    (d.map fun kv => if kv.1 = k then (k, v) else kv).map Prod.fst = d.map Prod.fst := by
  rw [List.map_map]
  apply List.map_congr_left
  intro kv _
  by_cases hk : kv.1 = k
  · simp [hk]
  · simp [hk]

theorem dictGet_setInPlace_self {α : Type} (d : List (Int × α)) (k : Int) (v : α)
    (h : k ∈ d.map Prod.fst) :
    dictGet (d.map fun kv => if kv.1 = k then (k, v) else kv) k = some v := by
  induction d with
  | nil => simp at h
  | cons hd tl ih =>
    by_cases hk : hd.1 = k
    · simp [dictGet, hk]
    · simp only [List.map_cons, if_neg hk, List.mem_cons] at h ⊢
      rw [dictGet, if_neg hk]
      exact ih (h.resolve_left fun he => hk he.symm)

theorem dictGet_setInPlace_ne {α : Type} (d : List (Int × α)) (k : Int) (v : α) (k' : Int)
    (h : k' ≠ k) :
    dictGet (d.map fun kv => if kv.1 = k then (k, v) else kv) k' = dictGet d k' := by
  induction d with
  | nil => rfl
  | cons hd tl ih =>
    by_cases hk : hd.1 = k
    · rw [List.map_cons, if_pos hk, dictGet, dictGet, if_neg (fun he => h he.symm),
        if_neg (by rw [hk]; exact fun he => h he.symm)]
      exact ih
    · rw [List.map_cons, if_neg hk, dictGet, dictGet]
      by_cases he : hd.1 = k'
      · rw [if_pos he, if_pos he]
      · rw [if_neg he, if_neg he]
        exact ih

theorem dictGet_append_single {α : Type} (d : List (Int × α)) (k : Int) (v : α)
    (h : k ∉ d.map Prod.fst) :
    dictGet (d ++ [(k, v)]) k = some v := by
  induction d with
  | nil => simp [dictGet]
  | cons hd tl ih =>
    simp only [List.map_cons, List.mem_cons] at h
    push_neg at h
    rw [List.cons_append, dictGet, if_neg (fun he => h.1 he.symm)]
    exact ih h.2

theorem dictGet_append_single_ne {α : Type} (d : List (Int × α)) (k : Int) (v : α) (k' : Int)
    (h : k' ≠ k) :
    dictGet (d ++ [(k, v)]) k' = dictGet d k' := by
  induction d with
  | nil =>
    show dictGet [(k, v)] k' = dictGet ([] : List (Int × α)) k'
    simp only [dictGet]
    rw [if_neg (fun he => h he.symm)]
  | cons hd tl ih =>
    rw [List.cons_append, dictGet, dictGet]
    by_cases he : hd.1 = k'
    · rw [if_pos he, if_pos he]
    · rw [if_neg he, if_neg he]
      exact ih

theorem dictInsert_get_self {α : Type} (d : List (Int × α)) (k : Int) (v : α) :
    dictGet (dictInsert d k v) k = some v := by
  unfold dictInsert
  by_cases h : hasKey d k = true
  · rw [if_pos h]
    exact dictGet_setInPlace_self d k v ((hasKey_iff d k).mp h)
  · rw [if_neg h]
    exact dictGet_append_single d k v (fun hm => h ((hasKey_iff d k).mpr hm))

theorem dictInsert_get_ne {α : Type} (d : List (Int × α)) (k : Int) (v : α) (k' : Int)
    (h : k' ≠ k) :
    dictGet (dictInsert d k v) k' = dictGet d k' := by
  unfold dictInsert
  by_cases hc : hasKey d k = true
  · rw [if_pos hc]; exact dictGet_setInPlace_ne d k v k' h
  · rw [if_neg hc]; exact dictGet_append_single_ne d k v k' h

theorem dictInsert_map_fst_of_hasKey {α : Type} {d : List (Int × α)} {k : Int} (v : α)
    (h : hasKey d k = true) :
    (dictInsert d k v).map Prod.fst = d.map Prod.fst := by
  rw [dictInsert, if_pos h, setInPlace_map_fst]

theorem dictInsert_append_of_not_hasKey {α : Type} {d : List (Int × α)} {k : Int} (v : α)
    (h : hasKey d k = false) :
    dictInsert d k v = d ++ [(k, v)] := by
  rw [dictInsert, if_neg (by rw [h]; exact Bool.false_ne_true)]

theorem dictInsert_length_of_hasKey {α : Type} {d : List (Int × α)} {k : Int} (v : α)
    (h : hasKey d k = true) :
    (dictInsert d k v).length = d.length := by
  rw [dictInsert, if_pos h, List.length_map]

theorem dictGet_eq_none_of_not_mem {α : Type} {d : List (Int × α)} {k : Int}
    (h : k ∉ d.map Prod.fst) :
    dictGet d k = none := by
  induction d with
  | nil => rfl
  | cons hd tl ih =>
    simp only [List.map_cons, List.mem_cons] at h
    push_neg at h
    rw [dictGet, if_neg (fun he => h.1 he.symm)]
    exact ih h.2

theorem mem_of_dictGet_eq_some {κ α : Type} [DecidableEq κ] {d : List (κ × α)} {k : κ} {v : α}
    (h : dictGet d k = some v) : (k, v) ∈ d := by
  induction d with
  | nil => simp [dictGet] at h
  | cons hd tl ih =>
    rw [dictGet] at h
    by_cases he : hd.1 = k
    · rw [if_pos he] at h
      injection h with h
      exact List.mem_cons.mpr (Or.inl (Prod.ext he h).symm)
    · rw [if_neg he] at h
      exact List.mem_cons_of_mem _ (ih h)

theorem dictGet_isSome_of_mem {α : Type} {d : List (Int × α)} {k : Int}
    (h : k ∈ d.map Prod.fst) : ∃ v, dictGet d k = some v := by
  induction d with
  | nil => simp at h
  | cons hd tl ih =>
    rw [dictGet]
    by_cases he : hd.1 = k
    · exact ⟨hd.2, by rw [if_pos he]⟩
    · rw [if_neg he]
      simp only [List.map_cons, List.mem_cons] at h
      exact ih (h.resolve_left fun hh => he hh.symm)

theorem dictGet_of_mem_nodup {α : Type} {d : List (Int × α)}
    (hnd : (d.map Prod.fst).Nodup) {k : Int} {v : α} (h : (k, v) ∈ d) :
    dictGet d k = some v := by
  induction d with
  | nil => simp at h
  | cons hd tl ih =>
    simp only [List.map_cons, List.nodup_cons] at hnd
    rw [dictGet]
    rcases List.mem_cons.mp h with h | h
    · rw [← h]
      simp
    · have hk : hd.1 ≠ k := by
        intro he
        exact hnd.1 (he ▸ List.mem_map.mpr ⟨(k, v), h, rfl⟩)
      rw [if_neg hk]
      exact ih hnd.2 h

/-! ### `add_user` never fails: the guard compares a `str` with `int` keys -/

theorem add_user_eq (s : SecretSanta) (user : String) (user_id : Int) :
    s.add_user user user_id =
      ({ s with
          people := dictInsert s.people user_id user
          wishlist := dictInsert s.wishlist user_id []
          pointer := dictInsert s.pointer user_id PyScalar.pnull }, true) := by
  have h : listContains (s.wishlist.map (fun kv => PyScalar.pint kv.1))
      (PyScalar.pstr user) = false := by
    rw [← Bool.not_eq_true, listContains_iff]
    intro hm
    rcases List.mem_map.mp hm with ⟨kv, _, hk⟩
    exact PyScalar.noConfusion hk
  rw [SecretSanta.add_user, h]
  rfl

/-- Claim C1: the spec requires `add_user` to return `False` with no
mutation when the name is already registered; evaluating the code at the
failing input (register "JP" under id 1, then "JP" under id 2) shows both
calls return `True` and the roster ends with two participants named "JP". -/
theorem C1_add_user_duplicate_name_bug :
    (((SecretSanta.init "X" 20).add_user "JP" 1).2 = true) ∧
    ((((SecretSanta.init "X" 20).add_user "JP" 1).1.add_user "JP" 2).2 = true) ∧
    ((((SecretSanta.init "X" 20).add_user "JP" 1).1.add_user "JP" 2).1.people =
      [(1, "JP"), (2, "JP")]) := by
  simp only [add_user_eq]
  exact ⟨trivial, trivial, by decide⟩

/-- Claim C10: `add_user` with an already-registered id returns `true` and
silently overwrites that participant: the stored name is replaced, the
wishlist entry is reset to `[]`, the pointer entry is reset to unset, and
the participant count is unchanged. -/
theorem C10_add_user_overwrites_id (s : SecretSanta) (user : String) (user_id : Int)
    (h : user_id ∈ s.people.map Prod.fst) :
    (s.add_user user user_id).2 = true ∧
    dictGet (s.add_user user user_id).1.people user_id = some user ∧
    dictGet (s.add_user user user_id).1.wishlist user_id = some [] ∧
    dictGet (s.add_user user user_id).1.pointer user_id = some PyScalar.pnull ∧
    (s.add_user user user_id).1.people.length = s.people.length := by
  rw [add_user_eq]
  exact ⟨rfl, dictInsert_get_self _ _ _, dictInsert_get_self _ _ _,
    dictInsert_get_self _ _ _,
    dictInsert_length_of_hasKey _ ((hasKey_iff _ _).mpr h)⟩

theorem C10_add_user_overwrites_id_witness :
    ((1 : Int) ∈ ((SecretSanta.init "X" 20).add_user "JP" 1).1.people.map Prod.fst) ∧
    ((((SecretSanta.init "X" 20).add_user "JP" 1).1.add_user "Ana" 1).2 = true ∧
     dictGet (((SecretSanta.init "X" 20).add_user "JP" 1).1.add_user "Ana" 1).1.people 1 =
       some "Ana" ∧
     dictGet (((SecretSanta.init "X" 20).add_user "JP" 1).1.add_user "Ana" 1).1.wishlist 1 =
       some [] ∧
     dictGet (((SecretSanta.init "X" 20).add_user "JP" 1).1.add_user "Ana" 1).1.pointer 1 =
       some PyScalar.pnull ∧
     (((SecretSanta.init "X" 20).add_user "JP" 1).1.add_user "Ana" 1).1.people.length =
       ((SecretSanta.init "X" 20).add_user "JP" 1).1.people.length) :=
  ⟨by rw [add_user_eq]; exact List.mem_singleton.mpr rfl,
   C10_add_user_overwrites_id _ "Ana" 1 (by rw [add_user_eq]; exact List.mem_singleton.mpr rfl)⟩

/-! ### `set_pointer` rejection lemmas -/

theorem is_valid_pointer_false_of_first_check (s : SecretSanta)
    (np : List (Int × PyScalar))
    (h : listSetEq ((np.map Prod.fst).map PyScalar.pint) (np.map Prod.snd) = false ∨
         listSetEq (np.map Prod.fst) (s.pointer.map Prod.fst) = false) :
    s.is_valid_pointer np = false := by
  rw [SecretSanta.is_valid_pointer]
  rcases h with h | h <;> rw [h] <;> simp

theorem set_pointer_of_invalid {s : SecretSanta} {np : List (Int × PyScalar)}
    (h : s.is_valid_pointer np = false) :
    s.set_pointer np = (s, false) := by
  rw [SecretSanta.set_pointer, h]
  rfl

/-- Claim C7: on a roster with at least one participant, any candidate
mapping containing an unset (`None`) value is rejected by validation —
`set_pointer` returns `false` and the pointer is untouched.  (The `None`
value lands in the value set but can never be in the key set, so the
`keys != values` check fails.) -/
theorem C7_set_pointer_rejects_null (s : SecretSanta) (np : List (Int × PyScalar))
    (_hne : s.people ≠ []) (hnull : ∃ k, (k, PyScalar.pnull) ∈ np) :
    s.is_valid_pointer np = false ∧ s.set_pointer np = (s, false) := by
  have hfirst : listSetEq ((np.map Prod.fst).map PyScalar.pint) (np.map Prod.snd) = false := by
    rw [← Bool.not_eq_true]
    intro hc
    obtain ⟨k, hk⟩ := hnull
    have hmem : PyScalar.pnull ∈ np.map Prod.snd :=
      List.mem_map.mpr ⟨(k, PyScalar.pnull), hk, rfl⟩
    have := ((listSetEq_iff _ _).mp hc PyScalar.pnull).mpr hmem
    rcases List.mem_map.mp this with ⟨_, _, hx⟩
    exact PyScalar.noConfusion hx
  have hv := is_valid_pointer_false_of_first_check s np (Or.inl hfirst)
  exact ⟨hv, set_pointer_of_invalid hv⟩

theorem C7_set_pointer_rejects_null_witness :
    (({ name := "X", budget := 20, people := [(1, "A"), (2, "B")],
        wishlist := [(1, []), (2, [])],
        pointer := [(1, PyScalar.pnull), (2, PyScalar.pnull)] } : SecretSanta).people ≠ [] ∧
     (∃ k, (k, PyScalar.pnull) ∈
        [(1, PyScalar.pint 2), (2, PyScalar.pnull)])) ∧
    (({ name := "X", budget := 20, people := [(1, "A"), (2, "B")],
        wishlist := [(1, []), (2, [])],
        pointer := [(1, PyScalar.pnull), (2, PyScalar.pnull)] } : SecretSanta).is_valid_pointer
        [(1, PyScalar.pint 2), (2, PyScalar.pnull)] = false ∧
     ({ name := "X", budget := 20, people := [(1, "A"), (2, "B")],
        wishlist := [(1, []), (2, [])],
        pointer := [(1, PyScalar.pnull), (2, PyScalar.pnull)] } : SecretSanta).set_pointer
        [(1, PyScalar.pint 2), (2, PyScalar.pnull)] =
       ({ name := "X", budget := 20, people := [(1, "A"), (2, "B")],
          wishlist := [(1, []), (2, [])],
          pointer := [(1, PyScalar.pnull), (2, PyScalar.pnull)] }, false)) :=
  ⟨⟨by decide, ⟨2, by decide⟩⟩,
   C7_set_pointer_rejects_null _ _ (by decide) ⟨2, by decide⟩⟩

/-- Claim C6: on a roster whose pointer keys coincide (as a set) with its
participant ids, `set_pointer` rejects any candidate whose key set differs
from the participant id set, and any candidate containing a self-mapping;
in both cases it returns `false` with the prior state exactly preserved. -/
theorem C6_set_pointer_rejects (s : SecretSanta) (np : List (Int × PyScalar))
    (hwf : listSetEq (s.pointer.map Prod.fst) (s.people.map Prod.fst) = true)
    (hbad : listSetEq (np.map Prod.fst) (s.people.map Prod.fst) = false ∨
            ∃ k, (k, PyScalar.pint k) ∈ np) :
    s.set_pointer np = (s, false) := by
  apply set_pointer_of_invalid
  rcases hbad with hbad | hbad
  · apply is_valid_pointer_false_of_first_check s np (Or.inr ?_)
    rw [← Bool.not_eq_true]
    intro hc
    have h1 := (listSetEq_iff _ _).mp hc
    have h2 := (listSetEq_iff _ _).mp hwf
    have : listSetEq (np.map Prod.fst) (s.people.map Prod.fst) = true :=
      (listSetEq_iff _ _).mpr (fun x => (h1 x).trans (h2 x))
    rw [this] at hbad
    exact Bool.noConfusion hbad
  · obtain ⟨k, hk⟩ := hbad
    rw [SecretSanta.is_valid_pointer]
    by_cases hc : (!listSetEq ((np.map Prod.fst).map PyScalar.pint) (np.map Prod.snd) ||
        !listSetEq (np.map Prod.fst) (s.pointer.map Prod.fst)) = true
    · rw [if_pos hc]
    · rw [if_neg hc, ← Bool.not_eq_true, List.all_eq_true]
      intro hall
      have := hall (k, PyScalar.pint k) hk
      simp at this

theorem C6_set_pointer_rejects_witness :
    (listSetEq
        (([(1, PyScalar.pnull), (2, PyScalar.pnull)] : List (Int × PyScalar)).map Prod.fst)
        (([(1, "A"), (2, "B")] : List (Int × String)).map Prod.fst) = true ∧
     (∃ k, (k, PyScalar.pint k) ∈
        [(1, PyScalar.pint 1), (2, PyScalar.pint 2)])) ∧
    ({ name := "X", budget := 20, people := [(1, "A"), (2, "B")],
       wishlist := [(1, []), (2, [])],
       pointer := [(1, PyScalar.pnull), (2, PyScalar.pnull)] } : SecretSanta).set_pointer
      [(1, PyScalar.pint 1), (2, PyScalar.pint 2)] =
      ({ name := "X", budget := 20, people := [(1, "A"), (2, "B")],
         wishlist := [(1, []), (2, [])],
         pointer := [(1, PyScalar.pnull), (2, PyScalar.pnull)] }, false) :=
  ⟨⟨by decide, ⟨1, by decide⟩⟩,
   C6_set_pointer_rejects _ _ (by decide) (Or.inr ⟨1, by decide⟩)⟩

/-! ### Draw-loop lemmas -/

theorem drawNonSelf_nil_pool (p : Int) (ds : List Int) : drawNonSelf p [] ds = none := by
  induction ds with
  | nil => rfl
  | cons d rest ih => simp [drawNonSelf, listContains]

theorem drawNonSelf_self_singleton (p : Int) (ds : List Int) :
    drawNonSelf p [p] ds = none := by
  induction ds with
  | nil => rfl
  | cons d rest ih =>
    by_cases hd : d = p
    · subst hd
      rw [drawNonSelf, if_pos (by simp [listContains]), if_pos rfl]
      exact ih
    · have hc : ¬ (listContains [p] d = true) := by
        simp only [listContains, List.any_cons, List.any_nil, Bool.or_false,
          decide_eq_true_eq]
        exact fun he => hd he.symm
      rw [drawNonSelf, if_neg hc]

theorem drawNonSelf_eq_some {p : Int} {pool ds : List Int} {v : Int} {rest : List Int}
    (h : drawNonSelf p pool ds = some (v, rest)) : v ∈ pool ∧ v ≠ p := by
  induction ds with
  | nil => exact Option.noConfusion h
  | cons d tl ih =>
    rw [drawNonSelf] at h
    by_cases hc : listContains pool d = true
    · rw [if_pos hc] at h
      by_cases hp : d = p
      · rw [if_pos hp] at h
        exact ih h
      · rw [if_neg hp, Option.some.injEq, Prod.mk.injEq] at h
        obtain ⟨rfl, -⟩ := h
        exact ⟨(listContains_iff _ _).mp hc, hp⟩
    · rw [if_neg hc] at h
      exact Option.noConfusion h

/-! ### The `remove_user` defect: stale pointer keys, shrunken pool -/

/-- The roster of `remove_user`'s own doctest: JP (20) and Nick (24),
pointer unset. -/
def exC2 : SecretSanta :=
  { name := "Christmas 2023", budget := 20, people := [(20, "JP"), (24, "Nick")],
    wishlist := [(20, []), (24, [])],
    pointer := [(20, PyScalar.pnull), (24, PyScalar.pnull)] }

theorem remove_exC2_eval (ds : List Int) : exC2.remove_user 24 ds = none := by
  have h := drawNonSelf_self_singleton 20 ds
  simp [SecretSanta.remove_user, SecretSanta.randomize_pointer, randomizeLoop, exC2,
    hasKey, listContains, dictPop, h]

/-- Claim C2: the spec's invariant says a participant's pointer entry is
deleted at removal, so after a successful `remove(id)` the id is no longer a
pointer key.  In the code `remove_user` pops the id from `_people` only and
then re-randomizes over the stale pointer keys with a diminished pool: on
its own doctest roster (JP 20, Nick 24) removing 24 never returns at all —
the lone remaining pool element 20 equals the first iterated person, so the
retry loop can never accept a draw. -/
theorem C2_remove_user_pointer_key_bug :
    ¬ ∃ ds : List Int, (exC2.remove_user 24 ds).isSome = true := by
  rintro ⟨ds, h⟩
  rw [remove_exC2_eval ds] at h
  exact Bool.noConfusion h

/-- A fully assigned three-person roster (1 → 2 → 3 → 1). -/
def exC3 : SecretSanta :=
  { name := "X", budget := 20, people := [(1, "A"), (2, "B"), (3, "C")],
    wishlist := [(1, []), (2, []), (3, [])],
    pointer := [(1, PyScalar.pint 2), (2, PyScalar.pint 3), (3, PyScalar.pint 1)] }

theorem remove_exC3_eval (ds : List Int) : exC3.remove_user 3 ds = none := by
  have hstep :
      randomizeLoop [(1, PyScalar.pint 2), (2, PyScalar.pint 3), (3, PyScalar.pint 1)]
        [1, 2, 3] [1, 2] ds = none := by
    rw [randomizeLoop]
    cases h1 : drawNonSelf 1 [1, 2] ds with
    | none => rfl
    | some vr =>
      obtain ⟨v, rest⟩ := vr
      obtain ⟨hv, hvne⟩ := drawNonSelf_eq_some h1
      have hv2 : v = 2 := by
        rcases List.mem_cons.mp hv with h | h
        · exact absurd h hvne
        · rcases List.mem_cons.mp h with h | h
          · exact h
          · simp at h
      subst hv2
      show randomizeLoop _ [2, 3] ([1, 2].erase 2) rest = none
      rw [show ([1, 2].erase 2 : List Int) = [1] by rfl, randomizeLoop]
      cases h2 : drawNonSelf 2 [1] rest with
      | none => rfl
      | some wr =>
        obtain ⟨w, rest2⟩ := wr
        obtain ⟨hw, hwne⟩ := drawNonSelf_eq_some h2
        have hw1 : w = 1 := by
          rcases List.mem_cons.mp hw with h | h
          · exact h
          · simp at h
        subst hw1
        show randomizeLoop _ [3] ([1].erase 1) rest2 = none
        rw [show ([1].erase 1 : List Int) = [] by rfl, randomizeLoop,
          drawNonSelf_nil_pool]
  simp [SecretSanta.remove_user, SecretSanta.randomize_pointer, exC3,
    hasKey, listContains, dictPop, hstep]

/-- Claim C3: the spec says removing a participant from a fully assigned
roster with three participants deletes their wishlist and pointer entries
and terminates with a derangement over the remaining two.  The code keeps
the removed id among the pointer keys, so the re-randomization iterates
three keys over a two-element pool: every draw trace either exhausts the
pool (`random.choice` on an empty list raises `IndexError`) or spins in the
self-retry loop — `remove_user` never returns normally. -/
theorem C3_remove_user_rerandomize_bug :
    ¬ ∃ ds : List Int, (exC3.remove_user 3 ds).isSome = true := by
  rintro ⟨ds, h⟩
  rw [remove_exC3_eval ds] at h
  exact Bool.noConfusion h

/-! ### `randomize_pointer`: divergence and the terminating trace -/

/-- A three-person roster with pointer keys equal to the participant ids,
all unset. -/
def exC4 : SecretSanta :=
  { name := "X", budget := 20, people := [(1, "A"), (2, "B"), (3, "C")],
    wishlist := [(1, []), (2, []), (3, [])],
    pointer := [(1, PyScalar.pnull), (2, PyScalar.pnull), (3, PyScalar.pnull)] }

theorem randomize_exC4_eval (ds : List Int) :
    exC4.randomize_pointer (2 :: 1 :: ds) = none := by
  have h := drawNonSelf_self_singleton 3 ds
  simp [SecretSanta.randomize_pointer, randomizeLoop, exC4, drawNonSelf,
    listContains, dictInsert, hasKey, List.erase, h]

/-- Claim C4 counterexample: `randomize()` is claimed to terminate with
`true` on every draw sequence whenever there is at least one participant.
On the three-person roster, any run whose first two accepted draws are 2
(for person 1) and 1 (for person 2) leaves person 3 facing the pool `[3]`:
every further draw is 3 and is rejected by the self-retry loop, so no
finite draw trace returns. -/
theorem C4_randomize_divergence_counterexample :
    ¬ ∃ ds : List Int, (exC4.randomize_pointer (2 :: 1 :: ds)).isSome = true := by
  rintro ⟨ds, h⟩
  rw [randomize_exC4_eval ds] at h
  exact Bool.noConfusion h


theorem randomizeLoop_rot (k0 : Int) :
    ∀ (ks : List Int) (curr : Int) (ptr : List (Int × PyScalar)),
      (curr :: ks).Nodup → k0 ∉ curr :: ks →
      ∃ ptr', randomizeLoop ptr (curr :: ks) (k0 :: ks) (ks ++ [k0]) = some ptr' := by
  intro ks
  induction ks with
  | nil =>
    intro curr ptr _ hk0
    have hne : ¬ (k0 = curr) := fun he => hk0 (he ▸ List.mem_singleton.mpr rfl)
    refine ⟨dictInsert ptr curr (PyScalar.pint k0), ?_⟩
    rw [List.nil_append, randomizeLoop]
    rw [show drawNonSelf curr [k0] [k0] = some (k0, []) by
      rw [drawNonSelf, if_pos (by simp [listContains]), if_neg hne]]
    show randomizeLoop (dictInsert ptr curr (PyScalar.pint k0)) [] ([k0].erase k0) [] =
      some (dictInsert ptr curr (PyScalar.pint k0))
    rfl
  | cons r rest ih =>
    intro curr ptr hnd hk0
    have hrcurr : ¬ (r = curr) := by
      intro he
      exact (List.nodup_cons.mp hnd).1 (he ▸ List.mem_cons_self r rest)
    have hk0r : k0 ≠ r := by
      intro he
      subst he
      exact hk0 (List.mem_cons_of_mem curr (List.mem_cons_self k0 rest))
    rw [List.cons_append, randomizeLoop]
    rw [show drawNonSelf curr (k0 :: r :: rest) (r :: (rest ++ [k0])) =
        some (r, rest ++ [k0]) by
      rw [drawNonSelf, if_pos (by
        rw [listContains_iff]
        exact List.mem_cons_of_mem k0 (List.mem_cons_self r rest)), if_neg hrcurr]]
    show ∃ ptr', randomizeLoop (dictInsert ptr curr (PyScalar.pint r)) (r :: rest)
        ((k0 :: r :: rest).erase r) (rest ++ [k0]) = some ptr'
    rw [show ((k0 :: r :: rest).erase r : List Int) = k0 :: rest by
      rw [List.erase_cons_tail (by simp [hk0r]), List.erase_cons_head]]
    exact ih r (dictInsert ptr curr (PyScalar.pint r))
      ((List.nodup_cons.mp hnd).2)
      (fun hm => hk0 (List.mem_cons_of_mem curr hm))

/-- Claim C4 (amended): with pointer keys equal to the participant ids and
at least two participants, some draw sequence makes `randomize()` terminate
with `true` (assigning each key the next key cyclically), and every
terminating run returns `true`; but — per the counterexample — termination
does not hold for every draw sequence, and with exactly one participant no
draw sequence terminates. -/
theorem C4_randomize_terminates_amended (s : SecretSanta)
    (hnd : (s.pointer.map Prod.fst).Nodup)
    (heq : s.people.map Prod.fst = s.pointer.map Prod.fst)
    (hlen : 2 ≤ s.pointer.length) :
    (∃ draws s', s.randomize_pointer draws = some (s', true)) ∧
    (∀ draws r, s.randomize_pointer draws = some r → r.2 = true) := by
  constructor
  · have hlen' : 2 ≤ (s.pointer.map Prod.fst).length := by
      rw [List.length_map]; exact hlen
    obtain ⟨k0, k1, ks, hp⟩ : ∃ k0 k1 ks, s.pointer.map Prod.fst = k0 :: k1 :: ks := by
      cases h1 : s.pointer.map Prod.fst with
      | nil => rw [h1] at hlen'; simp at hlen'
      | cons a l =>
        cases h2 : l with
        | nil => rw [h1, h2] at hlen'; simp at hlen'
        | cons b l2 => exact ⟨a, b, l2, by rw [← h2]⟩
    have hppl : s.people.map Prod.fst = k0 :: k1 :: ks := heq.trans hp
    have hnd' : (k0 :: k1 :: ks).Nodup := hp ▸ hnd
    have hk10 : ¬ (k1 = k0) := by
      intro he
      exact (List.nodup_cons.mp hnd').1 (he ▸ List.mem_cons_self k1 ks)
    have hd1 : drawNonSelf k0 (k0 :: k1 :: ks) (k1 :: (ks ++ [k0])) =
        some (k1, ks ++ [k0]) := by
      rw [drawNonSelf, if_pos (by
        rw [listContains_iff]
        exact List.mem_cons_of_mem k0 (List.mem_cons_self k1 ks)), if_neg hk10]
    have hk0mem : k0 ∉ k1 :: ks := (List.nodup_cons.mp hnd').1
    obtain ⟨ptr', hloop⟩ := randomizeLoop_rot k0 ks k1
      (dictInsert s.pointer k0 (PyScalar.pint k1))
      ((List.nodup_cons.mp hnd').2) hk0mem
    have hk01 : k0 ≠ k1 := fun he => hk10 he.symm
    have hRL : randomizeLoop s.pointer (k0 :: k1 :: ks) (k0 :: k1 :: ks)
        (k1 :: (ks ++ [k0])) = some ptr' := by
      rw [randomizeLoop, hd1]
      show randomizeLoop (dictInsert s.pointer k0 (PyScalar.pint k1)) (k1 :: ks)
          ((k0 :: k1 :: ks).erase k1) (ks ++ [k0]) = some ptr'
      rw [show ((k0 :: k1 :: ks).erase k1 : List Int) = k0 :: ks by
        rw [List.erase_cons_tail (by simp [hk01]), List.erase_cons_head]]
      exact hloop
    refine ⟨k1 :: (ks ++ [k0]), { s with pointer := ptr' }, ?_⟩
    rw [SecretSanta.randomize_pointer, hp, hppl, hRL]
  · intro draws r h
    rw [SecretSanta.randomize_pointer] at h
    cases hL : randomizeLoop s.pointer (s.pointer.map Prod.fst)
        (s.people.map Prod.fst) draws with
    | none => rw [hL] at h; exact Option.noConfusion h
    | some ptr =>
        rw [hL, Option.some.injEq] at h
        rw [← h]

/-- A two-person roster with unset pointer, for the C4 witness. -/
def exC4w : SecretSanta :=
  { name := "W", budget := 20, people := [(7, "A"), (8, "B")],
    wishlist := [(7, []), (8, [])],
    pointer := [(7, PyScalar.pnull), (8, PyScalar.pnull)] }

theorem C4_randomize_terminates_amended_witness :
    ((exC4w.pointer.map Prod.fst).Nodup ∧
     exC4w.people.map Prod.fst = exC4w.pointer.map Prod.fst ∧
     2 ≤ exC4w.pointer.length) ∧
    ((∃ draws s', exC4w.randomize_pointer draws = some (s', true)) ∧
     (∀ draws r, exC4w.randomize_pointer draws = some r → r.2 = true)) :=
  ⟨⟨by decide, by decide, by decide⟩,
   C4_randomize_terminates_amended exC4w (by decide) (by decide) (by decide)⟩

/-! ### Partial correctness of `randomize_pointer`: a derangement on return -/

/-- The integer assigned to key `k` in a pointer dict, if the stored value
is an `int`. -/
def assignedAt (ptr : List (Int × PyScalar)) (k : Int) : Option Int :=
  match dictGet ptr k with
  | some (PyScalar.pint v) => some v
  | _ => none

/-- The integer values stored in a pointer dict, in entry order. -/
def intValues (ptr : List (Int × PyScalar)) : List Int :=
  ptr.filterMap (fun kv =>
    match kv.2 with
    | PyScalar.pint v => some v
    | _ => none)

theorem randomizeLoop_map_fst :
    ∀ (ks : List Int) (pool draws : List Int) (ptr ptr' : List (Int × PyScalar)),
      randomizeLoop ptr ks pool draws = some ptr' →
      (∀ k ∈ ks, k ∈ ptr.map Prod.fst) →
      ptr'.map Prod.fst = ptr.map Prod.fst := by
  intro ks
  induction ks with
  | nil =>
    intro pool draws ptr ptr' h _
    rw [randomizeLoop, Option.some.injEq] at h
    rw [← h]
  | cons person keys ih =>
    intro pool draws ptr ptr' h hmem
    rw [randomizeLoop] at h
    cases hd : drawNonSelf person pool draws with
    | none => rw [hd] at h; exact Option.noConfusion h
    | some vr =>
      obtain ⟨v, rest⟩ := vr
      rw [hd] at h
      have hKey : hasKey ptr person = true :=
        (hasKey_iff _ _).mpr (hmem person (List.mem_cons_self person keys))
      have hfst := dictInsert_map_fst_of_hasKey (PyScalar.pint v) hKey
      have hrec := ih (pool.erase v) rest _ ptr' h
        (fun k hk => by rw [hfst]; exact hmem k (List.mem_cons_of_mem _ hk))
      rw [hrec, hfst]

theorem randomizeLoop_get_not_mem :
    ∀ (ks : List Int) (pool draws : List Int) (ptr ptr' : List (Int × PyScalar)) (k : Int),
      randomizeLoop ptr ks pool draws = some ptr' →
      k ∉ ks →
      dictGet ptr' k = dictGet ptr k := by
  intro ks
  induction ks with
  | nil =>
    intro pool draws ptr ptr' k h _
    rw [randomizeLoop, Option.some.injEq] at h
    rw [← h]
  | cons person keys ih =>
    intro pool draws ptr ptr' k h hk
    rw [randomizeLoop] at h
    cases hd : drawNonSelf person pool draws with
    | none => rw [hd] at h; exact Option.noConfusion h
    | some vr =>
      obtain ⟨v, rest⟩ := vr
      rw [hd] at h
      have hk1 : k ∉ keys := fun hm => hk (List.mem_cons_of_mem _ hm)
      have hk2 : k ≠ person := fun he => hk (he ▸ List.mem_cons_self person keys)
      rw [ih (pool.erase v) rest _ ptr' k h hk1, dictInsert_get_ne _ _ _ _ hk2]

theorem randomizeLoop_get_mem :
    ∀ (ks : List Int) (pool draws : List Int) (ptr ptr' : List (Int × PyScalar)),
      randomizeLoop ptr ks pool draws = some ptr' →
      ks.Nodup →
      ∀ k ∈ ks, ∃ v, dictGet ptr' k = some (PyScalar.pint v) ∧ v ≠ k ∧ v ∈ pool := by
  intro ks
  induction ks with
  | nil =>
    intro pool draws ptr ptr' _ _ k hk
    simp at hk
  | cons person keys ih =>
    intro pool draws ptr ptr' h hnd k hk
    rw [randomizeLoop] at h
    cases hd : drawNonSelf person pool draws with
    | none => rw [hd] at h; exact Option.noConfusion h
    | some vr =>
      obtain ⟨v, rest⟩ := vr
      rw [hd] at h
      obtain ⟨hvpool, hvne⟩ := drawNonSelf_eq_some hd
      rcases List.mem_cons.mp hk with rfl | hk
      · refine ⟨v, ?_, hvne, hvpool⟩
        rw [randomizeLoop_get_not_mem keys (pool.erase v) rest _ ptr' k h
          (List.nodup_cons.mp hnd).1]
        exact dictInsert_get_self _ _ _
      · obtain ⟨v', hget, hne, hpool⟩ :=
          ih (pool.erase v) rest _ ptr' h (List.nodup_cons.mp hnd).2 k hk
        exact ⟨v', hget, hne, List.mem_of_mem_erase hpool⟩

theorem randomizeLoop_perm :
    ∀ (ks : List Int) (pool draws : List Int) (ptr ptr' : List (Int × PyScalar)),
      randomizeLoop ptr ks pool draws = some ptr' →
      ks.Nodup →
      ∃ rest, pool.Perm ((ks.filterMap (assignedAt ptr')) ++ rest) := by
  intro ks
  induction ks with
  | nil =>
    intro pool draws ptr ptr' _ _
    exact ⟨pool, by simp⟩
  | cons person keys ih =>
    intro pool draws ptr ptr' h hnd
    rw [randomizeLoop] at h
    cases hd : drawNonSelf person pool draws with
    | none => rw [hd] at h; exact Option.noConfusion h
    | some vr =>
      obtain ⟨v, rest⟩ := vr
      rw [hd] at h
      obtain ⟨hvpool, hvne⟩ := drawNonSelf_eq_some hd
      obtain ⟨r, hr⟩ := ih (pool.erase v) rest _ ptr' h (List.nodup_cons.mp hnd).2
      have hperson : assignedAt ptr' person = some v := by
        rw [assignedAt, randomizeLoop_get_not_mem keys (pool.erase v) rest _ ptr' person h
          (List.nodup_cons.mp hnd).1, dictInsert_get_self]
      refine ⟨r, ?_⟩
      rw [List.filterMap_cons, hperson, List.cons_append]
      exact (List.perm_cons_erase hvpool).trans (hr.cons v)

theorem filterMap_length_all_isSome {α β : Type} (f : α → Option β) :
    ∀ l : List α, (∀ a ∈ l, (f a).isSome = true) → (l.filterMap f).length = l.length := by
  intro l
  induction l with
  | nil => intro _; rfl
  | cons a t ih =>
    intro hall
    obtain ⟨b, hb⟩ := Option.isSome_iff_exists.mp (hall a (List.mem_cons_self a t))
    rw [List.filterMap_cons, hb, List.length_cons, List.length_cons,
      ih (fun x hx => hall x (List.mem_cons_of_mem _ hx))]

theorem filterMap_keys_eq_intValues {l : List (Int × PyScalar)}
    (hnd : (l.map Prod.fst).Nodup) :
    (l.map Prod.fst).filterMap (assignedAt l) = intValues l := by
  induction l with
  | nil => rfl
  | cons hd tl ih =>
    simp only [List.map_cons, List.nodup_cons] at hnd
    rw [List.map_cons, List.filterMap_cons, intValues, List.filterMap_cons]
    have hhd : assignedAt (hd :: tl) hd.1 = match hd.2 with
        | PyScalar.pint v => some v
        | _ => none := by
      rw [assignedAt, dictGet, if_pos rfl]
      cases hv2 : hd.2 <;> rfl
    have htl : (tl.map Prod.fst).filterMap (assignedAt (hd :: tl)) =
        (tl.map Prod.fst).filterMap (assignedAt tl) := by
      apply List.filterMap_congr
      intro k hk
      have hne : hd.1 ≠ k := fun he => hnd.1 (he ▸ hk)
      rw [assignedAt, assignedAt, dictGet, if_neg hne]
    rw [hhd, htl, ih hnd.2]
    cases hv : hd.2 <;> rfl

/-- Claim C5: whenever `randomize_pointer` returns on a roster whose pointer
keys equal its participant id set, the resulting pointer is total on the
unchanged key set, every entry holds an integer participant id different
from its key (no fixed point), and each participant id occurs as a value
exactly once (the assigned values are a permutation of the participant id
list) — a derangement. -/
theorem C5_randomize_derangement (s : SecretSanta) (draws : List Int)
    (s' : SecretSanta) (b : Bool)
    (hperm : (s.people.map Prod.fst).Perm (s.pointer.map Prod.fst))
    (hnd : (s.pointer.map Prod.fst).Nodup)
    (h : s.randomize_pointer draws = some (s', b)) :
    b = true ∧
    s'.pointer.map Prod.fst = s.pointer.map Prod.fst ∧
    (∀ kv ∈ s'.pointer, ∃ v, kv.2 = PyScalar.pint v ∧ v ≠ kv.1 ∧
      v ∈ s.people.map Prod.fst) ∧
    (s.people.map Prod.fst).Perm (intValues s'.pointer) := by
  rw [SecretSanta.randomize_pointer] at h
  cases hL : randomizeLoop s.pointer (s.pointer.map Prod.fst)
      (s.people.map Prod.fst) draws with
  | none => rw [hL] at h; exact Option.noConfusion h
  | some ptr' =>
    rw [hL, Option.some.injEq, Prod.mk.injEq] at h
    obtain ⟨hs', hb⟩ := h
    subst hb
    have hfst : ptr'.map Prod.fst = s.pointer.map Prod.fst :=
      randomizeLoop_map_fst _ _ _ _ _ hL (fun k hk => hk)
    have hptr : s'.pointer = ptr' := by rw [← hs']
    refine ⟨rfl, by rw [hptr, hfst], ?_, ?_⟩
    · intro kv hkv
      rw [hptr] at hkv
      have hkmem : kv.1 ∈ s.pointer.map Prod.fst := by
        rw [← hfst]; exact List.mem_map.mpr ⟨kv, hkv, rfl⟩
      obtain ⟨v, hget, hne, hpool⟩ :=
        randomizeLoop_get_mem _ _ _ _ _ hL hnd kv.1 hkmem
      have hnd' : (ptr'.map Prod.fst).Nodup := by rw [hfst]; exact hnd
      have hkv2 := dictGet_of_mem_nodup hnd' (show (kv.1, kv.2) ∈ ptr' from hkv)
      rw [hkv2, Option.some.injEq] at hget
      exact ⟨v, hget, hne, hpool⟩
    · obtain ⟨r, hr⟩ := randomizeLoop_perm _ _ _ _ _ hL hnd
      have hlenks : ((s.pointer.map Prod.fst).filterMap (assignedAt ptr')).length
          = (s.pointer.map Prod.fst).length := by
        apply filterMap_length_all_isSome
        intro k hk
        obtain ⟨v, hget, -, -⟩ := randomizeLoop_get_mem _ _ _ _ _ hL hnd k hk
        rw [assignedAt, hget]
        rfl
      have hlenpool : (s.people.map Prod.fst).length = (s.pointer.map Prod.fst).length :=
        hperm.length_eq
      have hlen2 := hr.length_eq
      rw [List.length_append, hlenks] at hlen2
      have hr0 : r = [] := List.length_eq_zero.mp (by omega)
      subst hr0
      rw [List.append_nil] at hr
      have hbridge : (s.pointer.map Prod.fst).filterMap (assignedAt ptr') =
          intValues ptr' := by
        rw [← hfst]
        exact filterMap_keys_eq_intValues (by rw [hfst]; exact hnd)
      rw [hptr, ← hbridge]
      exact hr

/-- A three-person roster with unset pointer, for the C5 witness. -/
def exC5 : SecretSanta :=
  { name := "X", budget := 20, people := [(1, "A"), (2, "B"), (3, "C")],
    wishlist := [(1, []), (2, []), (3, [])],
    pointer := [(1, PyScalar.pnull), (2, PyScalar.pnull), (3, PyScalar.pnull)] }

/-- The state produced by `randomize_pointer` on `exC5` with draws 2, 3, 1. -/
def exC5res : SecretSanta :=
  { name := "X", budget := 20, people := [(1, "A"), (2, "B"), (3, "C")],
    wishlist := [(1, []), (2, []), (3, [])],
    pointer := [(1, PyScalar.pint 2), (2, PyScalar.pint 3), (3, PyScalar.pint 1)] }

theorem C5_randomize_derangement_witness :
    ((exC5.people.map Prod.fst).Perm (exC5.pointer.map Prod.fst) ∧
     (exC5.pointer.map Prod.fst).Nodup ∧
     exC5.randomize_pointer [2, 3, 1] = some (exC5res, true)) ∧
    (true = true ∧
     exC5res.pointer.map Prod.fst = exC5.pointer.map Prod.fst ∧
     (∀ kv ∈ exC5res.pointer, ∃ v, kv.2 = PyScalar.pint v ∧ v ≠ kv.1 ∧
       v ∈ exC5.people.map Prod.fst) ∧
     (exC5.people.map Prod.fst).Perm (intValues exC5res.pointer)) :=
  ⟨⟨by decide, by decide, by decide⟩,
   C5_randomize_derangement exC5 [2, 3, 1] exC5res true (by decide) (by decide) (by decide)⟩

/-! ### Decimal print/parse round trip -/

theorem charVal_digitChar {d : Nat} (h : d < 10) : charVal (Nat.digitChar d) = d := by
  interval_cases d <;> decide

theorem digitChar_ne_dash {d : Nat} (h : d < 10) : Nat.digitChar d ≠ '-' := by
  interval_cases d <;> decide

theorem parseNatChars_append (l : List Char) (c : Char) :
    parseNatChars (l ++ [c]) = (parseNatChars l) * 10 + charVal c := by
  rw [parseNatChars, parseNatChars, List.foldl_append]
  rfl

theorem parseNatChars_natCharsCore :
    ∀ (fuel n : Nat), n ≤ fuel → parseNatChars (natCharsCore fuel n) = n := by
  intro fuel
  induction fuel with
  | zero =>
    intro n h
    interval_cases n
    rfl
  | succ f ih =>
    intro n h
    match n with
    | 0 => rfl
    | m + 1 =>
      rw [natCharsCore, parseNatChars_append,
        ih ((m + 1) / 10) (by omega),
        charVal_digitChar (Nat.mod_lt _ (by norm_num))]
      omega

theorem parseNatChars_natChars (n : Nat) : parseNatChars (natChars n) = n := by
  rw [natChars]
  by_cases h : n = 0
  · rw [if_pos h, h]
    rfl
  · rw [if_neg h]
    exact parseNatChars_natCharsCore n n le_rfl

theorem mem_natCharsCore_ne_dash :
    ∀ (fuel n : Nat) (c : Char), c ∈ natCharsCore fuel n → c ≠ '-' := by
  intro fuel
  induction fuel with
  | zero =>
    intro n c hc
    cases n <;> simp [natCharsCore] at hc
  | succ f ih =>
    intro n c hc
    match n with
    | 0 => simp [natCharsCore] at hc
    | m + 1 =>
      rw [natCharsCore] at hc
      rcases List.mem_append.mp hc with hc | hc
      · exact ih _ c hc
      · rw [List.mem_singleton] at hc
        subst hc
        exact digitChar_ne_dash (Nat.mod_lt _ (by norm_num))

theorem mem_natChars_ne_dash {n : Nat} {c : Char} (h : c ∈ natChars n) : c ≠ '-' := by
  rw [natChars] at h
  by_cases h0 : n = 0
  · rw [if_pos h0, List.mem_singleton] at h
    subst h
    decide
  · rw [if_neg h0] at h
    exact mem_natCharsCore_ne_dash n n c h

theorem natChars_ne_nil (n : Nat) : natChars n ≠ [] := by
  rw [natChars]
  by_cases h : n = 0
  · rw [if_pos h]
    exact List.cons_ne_nil _ _
  · rw [if_neg h]
    match n, h with
    | m + 1, _ =>
      rw [natCharsCore]
      exact List.append_ne_nil_of_right_ne_nil _ (List.cons_ne_nil _ _)

theorem pyIntOfStr_pyStrInt (k : Int) : pyIntOfStr (pyStrInt k) = k := by
  by_cases hk : k < 0
  · rw [pyStrInt, if_pos hk]
    show - (parseNatChars (natChars k.natAbs) : Int) = k
    rw [parseNatChars_natChars]
    omega
  · rw [pyStrInt, if_neg hk]
    obtain ⟨c, t, hct⟩ : ∃ c t, natChars k.natAbs = c :: t := by
      cases hn : natChars k.natAbs with
      | nil => exact absurd hn (natChars_ne_nil _)
      | cons c t => exact ⟨c, t, rfl⟩
    have hc : c ≠ '-' := mem_natChars_ne_dash (hct ▸ List.mem_cons_self c t)
    rw [hct]
    have hred : pyIntOfStr (String.mk (c :: t)) = (parseNatChars (c :: t) : Int) := by
      rw [pyIntOfStr]
      split
      · next rest heq =>
          rw [show (String.mk (c :: t)).data = c :: t from rfl] at heq
          exact absurd (List.head_eq_of_cons_eq heq) hc
      · next => rfl
    rw [hred, ← hct, parseNatChars_natChars]
    omega

theorem pyStrInt_injective {a b : Int} (h : pyStrInt a = pyStrInt b) : a = b := by
  have := congrArg pyIntOfStr h
  rwa [pyIntOfStr_pyStrInt, pyIntOfStr_pyStrInt] at this

/-! ### Serialization: table keys and the shape of pointer values -/

/-- The value shape the spec asserts for serialized pointer entries:
a string or null — never a raw integer. -/
def isStringOrNull : PyScalar → Bool
  | PyScalar.pint _ => false
  | _ => true

/-- A two-person roster with an assigned pointer 1 → 2 → 1. -/
def exC9 : SecretSanta :=
  { name := "X", budget := 20, people := [(1, "A"), (2, "B")],
    wishlist := [(1, []), (2, [])],
    pointer := [(1, PyScalar.pint 2), (2, PyScalar.pint 1)] }

/-- Claim C9 counterexample: the spec says every set entry in the serialized
pointer table is the decimal *string* form of a participant id or null; the
code stores `self._pointer[person]` without `str()`, so on a roster with the
assigned pointer 1 → 2 → 1 the serialized table holds raw integers and the
claimed value shape fails. -/
theorem C9_pointer_values_counterexample :
    ((exC9.to_dict).pointer.all (fun kv => isStringOrNull kv.2)) = false := by decide

/-- Claim C9 (amended): `to_dict` keys all three tables by the decimal
string forms of the participant ids, with identical key lists, and every
pointer-table entry is the raw stored value — null or a raw *integer* id,
not its string form (given the runtime-typed pointer values of the source's
`dict[int, Optional[int]]` annotation). -/
theorem C9_to_dict_tables_amended (s : SecretSanta)
    (hty : ∀ kv ∈ s.pointer, kv.2 = PyScalar.pnull ∨ ∃ i, kv.2 = PyScalar.pint i) :
    (s.to_dict).people.map Prod.fst = s.people.map (fun p => pyStrInt p.1) ∧
    (s.to_dict).wishlist.map Prod.fst = (s.to_dict).people.map Prod.fst ∧
    (s.to_dict).pointer.map Prod.fst = (s.to_dict).people.map Prod.fst ∧
    ∀ kv ∈ (s.to_dict).pointer, kv.2 = PyScalar.pnull ∨ ∃ i, kv.2 = PyScalar.pint i := by
  refine ⟨?_, ?_, ?_, ?_⟩
  · rw [SecretSanta.to_dict, List.map_map]
    rfl
  · rw [SecretSanta.to_dict, List.map_map, List.map_map]
    rfl
  · rw [SecretSanta.to_dict, List.map_map, List.map_map]
    rfl
  · intro kv hkv
    rw [SecretSanta.to_dict] at hkv
    rcases List.mem_map.mp hkv with ⟨p, _, rfl⟩
    cases hd : dictGet s.pointer p.1 with
    | none =>
        left
        rfl
    | some v =>
        have hv : (p.1, v) ∈ s.pointer := mem_of_dictGet_eq_some hd
        rcases hty _ hv with h | ⟨i, h⟩
        · left
          exact h
        · right
          exact ⟨i, h⟩

theorem C9_to_dict_tables_amended_witness :
    (∀ kv ∈ exC9.pointer, kv.2 = PyScalar.pnull ∨ ∃ i, kv.2 = PyScalar.pint i) ∧
    ((exC9.to_dict).people.map Prod.fst = exC9.people.map (fun p => pyStrInt p.1) ∧
     (exC9.to_dict).wishlist.map Prod.fst = (exC9.to_dict).people.map Prod.fst ∧
     (exC9.to_dict).pointer.map Prod.fst = (exC9.to_dict).people.map Prod.fst ∧
     ∀ kv ∈ (exC9.to_dict).pointer, kv.2 = PyScalar.pnull ∨
       ∃ i, kv.2 = PyScalar.pint i) :=
  ⟨by intro kv hkv
      rcases List.mem_cons.mp hkv with rfl | hkv
      · exact Or.inr ⟨2, rfl⟩
      · rcases List.mem_cons.mp hkv with rfl | hkv
        · exact Or.inr ⟨1, rfl⟩
        · simp at hkv,
   C9_to_dict_tables_amended exC9 (by
      intro kv hkv
      rcases List.mem_cons.mp hkv with rfl | hkv
      · exact Or.inr ⟨2, rfl⟩
      · rcases List.mem_cons.mp hkv with rfl | hkv
        · exact Or.inr ⟨1, rfl⟩
        · simp at hkv)⟩

/-! ### Round trip: serialize then deserialize -/

theorem hasKey_eq_false {α : Type} {d : List (Int × α)} {k : Int}
    (h : k ∉ d.map Prod.fst) : hasKey d k = false := by
  cases hc : hasKey d k
  · rfl
  · exact absurd ((hasKey_iff d k).mp hc) h

theorem listContains_eq_false {α : Type} [DecidableEq α] {l : List α} {x : α}
    (h : x ∉ l) : listContains l x = false := by
  cases hc : listContains l x
  · rfl
  · exact absurd ((listContains_iff l x).mp hc) h

theorem listSetEq_self {α : Type} [DecidableEq α] (a : List α) : listSetEq a a = true :=
  (listSetEq_iff a a).mpr (fun _ => Iff.rfl)

theorem pyMemIntSet_congr {v : PyScalar} {k1 k2 : List Int}
    (h : ∀ x, x ∈ k1 ↔ x ∈ k2) : pyMemIntSet v k1 = pyMemIntSet v k2 := by
  cases v with
  | pint i =>
      show listContains k1 i = listContains k2 i
      by_cases hm : i ∈ k2
      · rw [(listContains_iff k2 i).mpr hm, (listContains_iff k1 i).mpr ((h i).mpr hm)]
      · rw [listContains_eq_false hm, listContains_eq_false (fun hx => hm ((h i).mp hx))]
  | pnull => rfl
  | pstr t => rfl

theorem entry_ok_iff (keys : List Int) (kv : Int × PyScalar) :
    (!(decide (PyScalar.pint kv.1 = kv.2) ||
      (!(pyMemIntSet kv.2 keys) && !(decide (kv.2 = PyScalar.pnull))))) = true ↔
    (¬(PyScalar.pint kv.1 = kv.2) ∧
     (pyMemIntSet kv.2 keys = true ∨ kv.2 = PyScalar.pnull)) := by
  cases hm : pyMemIntSet kv.2 keys <;> by_cases hd1 : PyScalar.pint kv.1 = kv.2 <;>
    by_cases hd2 : kv.2 = PyScalar.pnull <;> simp [hm, hd1, hd2]

theorem is_valid_pointer_iff (s : SecretSanta) (np : List (Int × PyScalar)) :
    s.is_valid_pointer np = true ↔
    (listSetEq ((np.map Prod.fst).map PyScalar.pint) (np.map Prod.snd) = true ∧
     listSetEq (np.map Prod.fst) (s.pointer.map Prod.fst) = true ∧
     ∀ kv ∈ np, ¬(PyScalar.pint kv.1 = kv.2) ∧
       (pyMemIntSet kv.2 (np.map Prod.fst) = true ∨ kv.2 = PyScalar.pnull)) := by
  rw [SecretSanta.is_valid_pointer]
  by_cases h1 : listSetEq ((np.map Prod.fst).map PyScalar.pint) (np.map Prod.snd) = true
  · by_cases h2 : listSetEq (np.map Prod.fst) (s.pointer.map Prod.fst) = true
    · rw [if_neg (fun hc => by
        rw [Bool.or_eq_true, Bool.not_eq_true', Bool.not_eq_true'] at hc
        rcases hc with hc | hc
        · rw [h1] at hc; exact Bool.noConfusion hc
        · rw [h2] at hc; exact Bool.noConfusion hc)]
      rw [List.all_eq_true]
      constructor
      · intro h
        exact ⟨h1, h2, fun kv hkv => (entry_ok_iff (np.map Prod.fst) kv).mp (h kv hkv)⟩
      · intro h kv hkv
        exact (entry_ok_iff (np.map Prod.fst) kv).mpr (h.2.2 kv hkv)
    · have h2f : listSetEq (np.map Prod.fst) (s.pointer.map Prod.fst) = false := by
        cases hc : listSetEq (np.map Prod.fst) (s.pointer.map Prod.fst)
        · rfl
        · exact absurd hc h2
      rw [if_pos (by rw [h2f]; simp)]
      constructor
      · intro hc
        exact Bool.noConfusion hc
      · rintro ⟨-, hc2, -⟩
        exact absurd hc2 h2
  · have h1f : listSetEq ((np.map Prod.fst).map PyScalar.pint) (np.map Prod.snd) = false := by
      cases hc : listSetEq ((np.map Prod.fst).map PyScalar.pint) (np.map Prod.snd)
      · rfl
      · exact absurd hc h1
    rw [if_pos (by rw [h1f]; simp)]
    constructor
    · intro hc
      exact Bool.noConfusion hc
    · rintro ⟨hc1, -, -⟩
      exact absurd hc1 h1

theorem dictGet_strKey_map {γ : Type} (l : List (Int × String)) (g : Int → γ) (k : Int)
    (h : k ∈ l.map Prod.fst) :
    dictGet (l.map fun q => (pyStrInt q.1, g q.1)) (pyStrInt k) = some (g k) := by
  induction l with
  | nil => simp at h
  | cons q t ih =>
    rw [List.map_cons, dictGet]
    by_cases he : q.1 = k
    · rw [if_pos (by rw [he]), he]
    · rw [if_neg (fun hs => he (pyStrInt_injective hs))]
      simp only [List.map_cons, List.mem_cons] at h
      exact ih (h.resolve_left fun hh => he hh.symm)

theorem dictGet_map_keyfun {γ : Type} (l : List (Int × String)) (f : Int → γ) (x : Int)
    (h : x ∈ l.map Prod.fst) :
    dictGet (l.map fun p => (p.1, f p.1)) x = some (f x) := by
  induction l with
  | nil => simp at h
  | cons q t ih =>
    rw [List.map_cons, dictGet]
    by_cases he : q.1 = x
    · rw [if_pos he, he]
    · rw [if_neg he]
      simp only [List.map_cons, List.mem_cons] at h
      exact ih (h.resolve_left fun hh => he hh.symm)

theorem map_keys_dictGet_eq {α : Type} (l : List (Int × α)) (dflt : α)
    (hnd : (l.map Prod.fst).Nodup) :
    l.map (fun kv => (kv.1, (dictGet l kv.1).getD dflt)) = l := by
  induction l with
  | nil => rfl
  | cons hd tl ih =>
    simp only [List.map_cons, List.nodup_cons] at hnd
    rw [List.map_cons]
    have hhd : (dictGet (hd :: tl) hd.1).getD dflt = hd.2 := by
      rw [dictGet, if_pos rfl]
      rfl
    have htl : tl.map (fun kv => (kv.1, (dictGet (hd :: tl) kv.1).getD dflt)) =
        tl.map (fun kv => (kv.1, (dictGet tl kv.1).getD dflt)) := by
      apply List.map_congr_left
      intro kv hkv
      have hne : hd.1 ≠ kv.1 := fun he =>
        hnd.1 (he ▸ List.mem_map.mpr ⟨kv, hkv, rfl⟩)
      rw [dictGet, if_neg hne]
    rw [hhd, htl, ih hnd.2]

theorem people_map_reconstruct {α : Type} (people : List (Int × String))
    (l : List (Int × α)) (dflt : α)
    (hkeys : l.map Prod.fst = people.map Prod.fst)
    (hnd : (l.map Prod.fst).Nodup) :
    people.map (fun p => (p.1, (dictGet l p.1).getD dflt)) = l := by
  have h1 : people.map (fun p => (p.1, (dictGet l p.1).getD dflt)) =
      (people.map Prod.fst).map (fun k => (k, (dictGet l k).getD dflt)) := by
    rw [List.map_map]
    rfl
  have h2 : (l.map Prod.fst).map (fun k => (k, (dictGet l k).getD dflt)) =
      l.map (fun kv => (kv.1, (dictGet l kv.1).getD dflt)) := by
    rw [List.map_map]
    rfl
  rw [h1, ← hkeys, h2, map_keys_dictGet_eq l dflt hnd]

theorem loadLoop_cons_eq (d : Snapshot) (pk nm : String) (rest : List (String × String))
    (acc : SecretSanta) (np : List (Int × PyScalar)) (pv : PyScalar) (wl : List String)
    (hp : dictGet d.pointer pk = some pv) (hw : dictGet d.wishlist pk = some wl) :
    loadLoop d ((pk, nm) :: rest) acc np =
      loadLoop d rest
        (wl.foldl (fun t w => t.add_wish (pyIntOfStr pk) w)
          (acc.add_user nm (pyIntOfStr pk)).1)
        (dictInsert np (pyIntOfStr pk) pv) := by
  rw [loadLoop, hp, hw]

theorem add_wish_foldl (k : Int) (ws : List String) :
    ∀ (t : SecretSanta) (pre : List (Int × List String)) (cur : List String),
      hasKey t.people k = true →
      t.wishlist = pre ++ [(k, cur)] →
      k ∉ pre.map Prod.fst →
      ws.foldl (fun t w => t.add_wish k w) t =
        { t with wishlist := pre ++ [(k, cur ++ ws)] } := by
  induction ws with
  | nil =>
    intro t pre cur _ hw _
    rw [List.foldl_nil, List.append_nil, ← hw]
  | cons w ws ih =>
    intro t pre cur hk hw hpre
    rw [List.foldl_cons]
    have hstep : t.add_wish k w = { t with wishlist := pre ++ [(k, cur ++ [w])] } := by
      rw [SecretSanta.add_wish, if_pos hk]
      have : t.wishlist.map (fun kv => if kv.1 = k then (kv.1, kv.2 ++ [w]) else kv) =
          pre ++ [(k, cur ++ [w])] := by
        rw [hw, List.map_append]
        have hpre' : pre.map (fun kv => if kv.1 = k then (kv.1, kv.2 ++ [w]) else kv) =
            pre := by
          conv_rhs => rw [← List.map_id pre]
          apply List.map_congr_left
          intro kv hkv
          rw [if_neg (fun he : kv.1 = k => hpre (he ▸ List.mem_map.mpr ⟨kv, hkv, rfl⟩))]
          rfl
        rw [hpre']
        simp
      rw [this]
    rw [hstep]
    have hres := ih { t with wishlist := pre ++ [(k, cur ++ [w])] } pre (cur ++ [w])
      hk rfl hpre
    rw [hres, List.append_assoc, List.singleton_append]

theorem not_mem_append_single_fst {α : Type} {d : List (Int × α)} {x k : Int} {v : α}
    (h1 : x ∉ d.map Prod.fst) (h2 : x ≠ k) :
    x ∉ (d ++ [(k, v)]).map Prod.fst := by
  rw [List.map_append]
  intro hm
  rcases List.mem_append.mp hm with hm | hm
  · exact h1 hm
  · rw [List.map_cons, List.map_nil, List.mem_singleton] at hm
    exact h2 hm

theorem loadLoop_build (s : SecretSanta) :
    ∀ (rest : List (Int × String)) (acc : SecretSanta) (np : List (Int × PyScalar)),
      (∀ p ∈ rest, p ∈ s.people) →
      (rest.map Prod.fst).Nodup →
      (∀ p ∈ rest, p.1 ∉ acc.people.map Prod.fst ∧ p.1 ∉ acc.wishlist.map Prod.fst ∧
        p.1 ∉ acc.pointer.map Prod.fst ∧ p.1 ∉ np.map Prod.fst) →
      loadLoop s.to_dict (rest.map fun p => (pyStrInt p.1, p.2)) acc np =
        some ({ acc with
            people := acc.people ++ rest
            wishlist := acc.wishlist ++
              rest.map (fun p => (p.1, (dictGet s.wishlist p.1).getD []))
            pointer := acc.pointer ++ rest.map (fun p => (p.1, PyScalar.pnull)) },
          np ++ rest.map (fun p => (p.1, (dictGet s.pointer p.1).getD PyScalar.pnull))) := by
  intro rest
  induction rest with
  | nil =>
    intro acc np _ _ _
    simp only [List.map_nil, List.append_nil, loadLoop]
  | cons p rest' ih =>
    intro acc np hsub hnd hdisj
    obtain ⟨k, nm⟩ := p
    have hpmem : (k, nm) ∈ s.people := hsub _ (List.mem_cons_self _ _)
    have hkmem : k ∈ s.people.map Prod.fst := List.mem_map.mpr ⟨(k, nm), hpmem, rfl⟩
    obtain ⟨hd1, hd2, hd3, hd4⟩ := hdisj _ (List.mem_cons_self _ _)
    simp only [List.map_cons, List.nodup_cons] at hnd
    have hdget_p : dictGet (s.to_dict).pointer (pyStrInt k) =
        some ((dictGet s.pointer k).getD PyScalar.pnull) := by
      show dictGet (s.people.map fun q =>
          (pyStrInt q.1, (dictGet s.pointer q.1).getD PyScalar.pnull)) (pyStrInt k) = _
      exact dictGet_strKey_map s.people
        (fun x => (dictGet s.pointer x).getD PyScalar.pnull) k hkmem
    have hdget_w : dictGet (s.to_dict).wishlist (pyStrInt k) =
        some ((dictGet s.wishlist k).getD []) := by
      show dictGet (s.people.map fun q =>
          (pyStrInt q.1, (dictGet s.wishlist q.1).getD [])) (pyStrInt k) = _
      exact dictGet_strKey_map s.people
        (fun x => (dictGet s.wishlist x).getD []) k hkmem
    rw [List.map_cons,
      loadLoop_cons_eq s.to_dict (pyStrInt k) nm _ acc np _ _ hdget_p hdget_w,
      pyIntOfStr_pyStrInt]
    have hs1 : (acc.add_user nm k).1 =
        { acc with
            people := acc.people ++ [(k, nm)]
            wishlist := acc.wishlist ++ [(k, [])]
            pointer := acc.pointer ++ [(k, PyScalar.pnull)] } := by
      rw [add_user_eq]
      show ({ acc with
          people := dictInsert acc.people k nm
          wishlist := dictInsert acc.wishlist k []
          pointer := dictInsert acc.pointer k PyScalar.pnull } : SecretSanta) = _
      rw [dictInsert_append_of_not_hasKey _ (hasKey_eq_false hd1),
        dictInsert_append_of_not_hasKey _ (hasKey_eq_false hd2),
        dictInsert_append_of_not_hasKey _ (hasKey_eq_false hd3)]
    have hnp1 : dictInsert np k ((dictGet s.pointer k).getD PyScalar.pnull) =
        np ++ [(k, (dictGet s.pointer k).getD PyScalar.pnull)] :=
      dictInsert_append_of_not_hasKey _ (hasKey_eq_false hd4)
    rw [hs1, hnp1]
    have hfold := add_wish_foldl k ((dictGet s.wishlist k).getD [])
      { acc with
          people := acc.people ++ [(k, nm)]
          wishlist := acc.wishlist ++ [(k, [])]
          pointer := acc.pointer ++ [(k, PyScalar.pnull)] }
      acc.wishlist []
      (by
        rw [hasKey_iff]
        show k ∈ (acc.people ++ [(k, nm)]).map Prod.fst
        rw [List.map_append]
        exact List.mem_append_right _ (by
          rw [List.map_cons, List.map_nil]
          exact List.mem_singleton.mpr rfl))
      rfl hd2
    rw [hfold, List.nil_append]
    have hdisj' : ∀ q ∈ rest',
        q.1 ∉ (acc.people ++ [(k, nm)]).map Prod.fst ∧
        q.1 ∉ (acc.wishlist ++ [(k, (dictGet s.wishlist k).getD [])]).map Prod.fst ∧
        q.1 ∉ (acc.pointer ++ [(k, PyScalar.pnull)]).map Prod.fst ∧
        q.1 ∉ (np ++ [(k, (dictGet s.pointer k).getD PyScalar.pnull)]).map Prod.fst := by
      intro q hq
      have hqk : q.1 ≠ k := fun he =>
        hnd.1 (he ▸ List.mem_map.mpr ⟨q, hq, rfl⟩)
      obtain ⟨e1, e2, e3, e4⟩ := hdisj _ (List.mem_cons_of_mem _ hq)
      exact ⟨not_mem_append_single_fst e1 hqk, not_mem_append_single_fst e2 hqk,
        not_mem_append_single_fst e3 hqk, not_mem_append_single_fst e4 hqk⟩
    have hres := ih
      { acc with
          people := acc.people ++ [(k, nm)]
          wishlist := acc.wishlist ++ [(k, (dictGet s.wishlist k).getD [])]
          pointer := acc.pointer ++ [(k, PyScalar.pnull)] }
      (np ++ [(k, (dictGet s.pointer k).getD PyScalar.pnull)])
      (fun q hq => hsub _ (List.mem_cons_of_mem _ hq))
      hnd.2 hdisj'
    rw [hres]
    simp only [List.map_cons]
    rw [List.append_cons acc.people (k, nm) rest',
      List.append_cons acc.wishlist (k, (dictGet s.wishlist k).getD [])
        (rest'.map (fun p => (p.1, (dictGet s.wishlist p.1).getD []))),
      List.append_cons acc.pointer (k, PyScalar.pnull)
        (rest'.map (fun p => (p.1, PyScalar.pnull))),
      List.append_cons np (k, (dictGet s.pointer k).getD PyScalar.pnull)
        (rest'.map (fun p => (p.1, (dictGet s.pointer p.1).getD PyScalar.pnull)))]

/-- Claim C8: serializing a roster (key-aligned wishlist, pointer keys equal
to the participant id set, pointer either fully unset or passing the
source's own validator — the spec's §3 invariants) and deserializing the
snapshot yields a roster with the same name, budget, participants and
wishlists in order, and the same pointer mapping (same key set, same value
at every key). -/
theorem C8_serialize_deserialize_roundtrip (s : SecretSanta)
    (hw : s.wishlist.map Prod.fst = s.people.map Prod.fst)
    (hndp : (s.people.map Prod.fst).Nodup)
    (hpk : listSetEq (s.pointer.map Prod.fst) (s.people.map Prod.fst) = true)
    (hndq : (s.pointer.map Prod.fst).Nodup)
    (hcase : (∀ kv ∈ s.pointer, kv.2 = PyScalar.pnull) ∨
             s.is_valid_pointer s.pointer = true) :
    ∃ s', load_exchange s.to_dict = some s' ∧
      s'.name = s.name ∧ s'.budget = s.budget ∧
      s'.people = s.people ∧ s'.wishlist = s.wishlist ∧
      s'.pointer.map Prod.fst = s.people.map Prod.fst ∧
      (∀ x, dictGet s'.pointer x = dictGet s.pointer x) := by
  have hkey_iff := (listSetEq_iff _ _).mp hpk
  have hloop := loadLoop_build s s.people (SecretSanta.init s.name s.budget) []
    (fun _ hp => hp) hndp
    (fun p _ => ⟨List.not_mem_nil _, List.not_mem_nil _, List.not_mem_nil _,
      List.not_mem_nil _⟩)
  simp only [SecretSanta.init, List.nil_append] at hloop
  have hle : load_exchange s.to_dict =
      some ((SecretSanta.set_pointer
        { name := s.name, budget := s.budget, people := s.people,
          wishlist := s.people.map (fun p => (p.1, (dictGet s.wishlist p.1).getD [])),
          pointer := s.people.map (fun p => (p.1, PyScalar.pnull)) }
        (s.people.map (fun p =>
          (p.1, (dictGet s.pointer p.1).getD PyScalar.pnull)))).1) := by
    rw [load_exchange,
      show (s.to_dict).people = s.people.map (fun p => (pyStrInt p.1, p.2)) from rfl,
      show (s.to_dict).name = s.name from rfl,
      show (s.to_dict).budget = s.budget from rfl,
      show SecretSanta.init s.name s.budget =
        { name := s.name, budget := s.budget, people := [], wishlist := [],
          pointer := [] } from rfl,
      hloop]
  have hBw : s.people.map (fun p => (p.1, (dictGet s.wishlist p.1).getD [])) =
      s.wishlist :=
    people_map_reconstruct s.people s.wishlist [] hw (by rw [hw]; exact hndp)
  have hNPfst : (s.people.map (fun p =>
      (p.1, (dictGet s.pointer p.1).getD PyScalar.pnull))).map Prod.fst =
      s.people.map Prod.fst := by
    rw [List.map_map]
    rfl
  have hBpfst : (s.people.map (fun p => (p.1, PyScalar.pnull))).map Prod.fst =
      s.people.map Prod.fst := by
    rw [List.map_map]
    rfl
  have hNPget : ∀ x, dictGet (s.people.map (fun p =>
      (p.1, (dictGet s.pointer p.1).getD PyScalar.pnull))) x = dictGet s.pointer x := by
    intro x
    by_cases hx : x ∈ s.people.map Prod.fst
    · rw [dictGet_map_keyfun s.people
        (fun k => (dictGet s.pointer k).getD PyScalar.pnull) x hx]
      obtain ⟨v, hv⟩ := dictGet_isSome_of_mem ((hkey_iff x).mpr hx)
      rw [hv]
      rfl
    · rw [dictGet_eq_none_of_not_mem (fun hm => hx (hNPfst ▸ hm)),
        dictGet_eq_none_of_not_mem (fun hm => hx ((hkey_iff x).mp hm))]
  rcases hcase with hall | hvalid
  · -- pointer fully unset: the collected pointer equals the rebuilt all-unset
    -- pointer, so whether or not `set_pointer` accepts it the result is the same
    have hNPB : s.people.map (fun p =>
        (p.1, (dictGet s.pointer p.1).getD PyScalar.pnull)) =
        s.people.map (fun p => (p.1, PyScalar.pnull)) := by
      apply List.map_congr_left
      intro p _
      have : (dictGet s.pointer p.1).getD PyScalar.pnull = PyScalar.pnull := by
        cases hd : dictGet s.pointer p.1 with
        | none => rfl
        | some v =>
            have hv := hall _ (mem_of_dictGet_eq_some hd)
            show v = PyScalar.pnull
            exact hv
      rw [this]
    refine ⟨_, hle, ?_⟩
    rw [SecretSanta.set_pointer]
    by_cases hv : SecretSanta.is_valid_pointer
        { name := s.name, budget := s.budget, people := s.people,
          wishlist := s.people.map (fun p => (p.1, (dictGet s.wishlist p.1).getD [])),
          pointer := s.people.map (fun p => (p.1, PyScalar.pnull)) }
        (s.people.map (fun p => (p.1, (dictGet s.pointer p.1).getD PyScalar.pnull))) = true
    · rw [if_pos hv]
      exact ⟨rfl, rfl, rfl, hBw, hNPfst, hNPget⟩
    · rw [if_neg hv]
      refine ⟨rfl, rfl, rfl, hBw, hBpfst, ?_⟩
      intro x
      rw [← hNPB]
      exact hNPget x
  · -- pointer fully assigned and valid: set_pointer accepts the collected pointer
    obtain ⟨c1, c2, c3⟩ := (is_valid_pointer_iff s s.pointer).mp hvalid
    have hkx : ∀ x : PyScalar,
        x ∈ ((s.people.map (fun p =>
          (p.1, (dictGet s.pointer p.1).getD PyScalar.pnull))).map Prod.fst).map
            PyScalar.pint ↔
        x ∈ (s.pointer.map Prod.fst).map PyScalar.pint := by
      intro x
      rw [hNPfst]
      constructor
      · intro hm
        rcases List.mem_map.mp hm with ⟨k, hk, rfl⟩
        exact List.mem_map.mpr ⟨k, (hkey_iff k).mpr hk, rfl⟩
      · intro hm
        rcases List.mem_map.mp hm with ⟨k, hk, rfl⟩
        exact List.mem_map.mpr ⟨k, (hkey_iff k).mp hk, rfl⟩
    have hvx : ∀ x : PyScalar,
        x ∈ (s.people.map (fun p =>
          (p.1, (dictGet s.pointer p.1).getD PyScalar.pnull))).map Prod.snd ↔
        x ∈ s.pointer.map Prod.snd := by
      intro x
      constructor
      · intro hm
        rcases List.mem_map.mp hm with ⟨kv, hkv, rfl⟩
        rcases List.mem_map.mp hkv with ⟨p, hp, rfl⟩
        obtain ⟨v, hv⟩ := dictGet_isSome_of_mem
          ((hkey_iff p.1).mpr (List.mem_map.mpr ⟨p, hp, rfl⟩))
        show ((dictGet s.pointer p.1).getD PyScalar.pnull) ∈ s.pointer.map Prod.snd
        rw [hv]
        exact List.mem_map.mpr ⟨(p.1, v), mem_of_dictGet_eq_some hv, rfl⟩
      · intro hm
        rcases List.mem_map.mp hm with ⟨kv, hkv, rfl⟩
        have hk : kv.1 ∈ s.people.map Prod.fst :=
          (hkey_iff kv.1).mp (List.mem_map.mpr ⟨kv, hkv, rfl⟩)
        rcases List.mem_map.mp hk with ⟨p, hp, hpk1⟩
        have hget : dictGet s.pointer kv.1 = some kv.2 :=
          dictGet_of_mem_nodup hndq hkv
        refine List.mem_map.mpr ⟨(p.1, (dictGet s.pointer p.1).getD PyScalar.pnull),
          List.mem_map.mpr ⟨p, hp, rfl⟩, ?_⟩
        show (dictGet s.pointer p.1).getD PyScalar.pnull = kv.2
        rw [hpk1, hget]
        rfl
    have hkeyset : ∀ x : Int,
        x ∈ (s.people.map (fun p =>
          (p.1, (dictGet s.pointer p.1).getD PyScalar.pnull))).map Prod.fst ↔
        x ∈ s.pointer.map Prod.fst := by
      intro x
      rw [hNPfst]
      exact (hkey_iff x).symm
    have hvB : SecretSanta.is_valid_pointer
        { name := s.name, budget := s.budget, people := s.people,
          wishlist := s.people.map (fun p => (p.1, (dictGet s.wishlist p.1).getD [])),
          pointer := s.people.map (fun p => (p.1, PyScalar.pnull)) }
        (s.people.map (fun p =>
          (p.1, (dictGet s.pointer p.1).getD PyScalar.pnull))) = true := by
      rw [is_valid_pointer_iff]
      refine ⟨?_, ?_, ?_⟩
      · rw [listSetEq_iff]
        intro x
        exact ((hkx x).trans ((listSetEq_iff _ _).mp c1 x)).trans (hvx x).symm
      · rw [listSetEq_iff]
        intro x
        show _ ↔ x ∈ (s.people.map (fun p => (p.1, PyScalar.pnull))).map Prod.fst
        rw [hNPfst, hBpfst]
      · intro kv hkv
        rcases List.mem_map.mp hkv with ⟨p, hp, rfl⟩
        obtain ⟨v, hv⟩ := dictGet_isSome_of_mem
          ((hkey_iff p.1).mpr (List.mem_map.mpr ⟨p, hp, rfl⟩))
        have hventry : (p.1, v) ∈ s.pointer := mem_of_dictGet_eq_some hv
        obtain ⟨hne, hmem⟩ := c3 (p.1, v) hventry
        have hvald : ((p.1, (dictGet s.pointer p.1).getD PyScalar.pnull) :
            Int × PyScalar).2 = v := by
          show (dictGet s.pointer p.1).getD PyScalar.pnull = v
          rw [hv]
          rfl
        constructor
        · rw [hvald]
          exact hne
        · rw [hvald, pyMemIntSet_congr hkeyset]
          exact hmem
    refine ⟨_, hle, ?_⟩
    rw [SecretSanta.set_pointer, if_pos hvB]
    exact ⟨rfl, rfl, rfl, hBw, hNPfst, hNPget⟩

/-- A two-person roster with wishes and a fully assigned valid pointer,
for the C8 witness. -/
def exC8 : SecretSanta :=
  { name := "Christmas", budget := 50, people := [(20, "JP"), (24, "Nick")],
    wishlist := [(20, ["Plato"]), (24, [])],
    pointer := [(20, PyScalar.pint 24), (24, PyScalar.pint 20)] }

theorem C8_serialize_deserialize_roundtrip_witness :
    (exC8.wishlist.map Prod.fst = exC8.people.map Prod.fst ∧
     (exC8.people.map Prod.fst).Nodup ∧
     listSetEq (exC8.pointer.map Prod.fst) (exC8.people.map Prod.fst) = true ∧
     (exC8.pointer.map Prod.fst).Nodup ∧
     exC8.is_valid_pointer exC8.pointer = true) ∧
    (∃ s', load_exchange exC8.to_dict = some s' ∧
      s'.name = exC8.name ∧ s'.budget = exC8.budget ∧
      s'.people = exC8.people ∧ s'.wishlist = exC8.wishlist ∧
      s'.pointer.map Prod.fst = exC8.people.map Prod.fst ∧
      (∀ x, dictGet s'.pointer x = dictGet exC8.pointer x)) :=
  ⟨⟨by decide, by decide, by decide, by decide, by decide⟩,
   C8_serialize_deserialize_roundtrip exC8 (by decide) (by decide) (by decide)
     (by decide) (Or.inr (by decide))⟩
